import Mathlib

/-!  A shallow embedding of the BLE GATT scanner backend
(`src/backend/app.py`) and proofs about its frame reassembly, capability
resolution, advertisement filtering and terminal-status logic.

Bytes are modelled as natural numbers and byte strings as `List ℕ`.
The Python dict `chunks : Dict[int, bytes]` is modelled as its key set
(`Finset ℕ`) together with the payload stored at each key; `len(chunks)`
is the cardinality of the key set.  -/

namespace BleGatt

/-- The reassembly state held inside `_perform_ble_scan_core`:
the dict `chunks` (app.py line 218) and `total_frames` (line 219). -/
structure RState where
  keys : Finset ℕ
  pay : ℕ → List ℕ
  total : Option ℕ

/-- Initial state: `chunks = {}`, `total_frames = None` (app.py lines 218-219). -/
def initState : RState := ⟨∅, fun _ => [], none⟩

/-- Decoded sequence index: `seq = data[0] | (data[1] << 8)` (app.py line 226). -/
def decSeq (d : List ℕ) : ℕ := d.getD 0 0 ||| (d.getD 1 0 <<< 8)

/-- Decoded declared total: `total = data[2] | (data[3] << 8)` (app.py line 227). -/
def decTotal (d : List ℕ) : ℕ := d.getD 2 0 ||| (d.getD 3 0 <<< 8)

/-- Decoded declared payload length: `ln = data[4] | (data[5] << 8)` (app.py line 228). -/
def decLen (d : List ℕ) : ℕ := d.getD 4 0 ||| (d.getD 5 0 <<< 8)

/-- Decoded payload: `payload = bytes(data[6:6+ln])` (app.py line 232). -/
def decPayload (d : List ℕ) : List ℕ := (d.drop 6).take (decLen d)

/-- The notification callback `handle_frame` (app.py lines 221-234): a runt
frame (fewer than 6 bytes) is dropped; a frame whose declared length overruns
the bytes present after the header is dropped; otherwise
`chunks[seq] = payload` and `total_frames = total` (both unconditional). -/
def handleFrame (s : RState) (d : List ℕ) : RState :=
  if d.length < 6 then s
  else if 6 + decLen d > d.length then s
  else
    { keys := insert (decSeq d) s.keys
      pay := Function.update s.pay (decSeq d) (decPayload d)
      total := some (decTotal d) }

/-- The state after the notification stream delivered the frames of `l`,
in that order. -/
def processFrames (l : List (List ℕ)) : RState := l.foldl handleFrame initState

/-- What the post-wait block of `_perform_ble_scan_core` (app.py lines
257-282) reports about the final reassembly state: no frame ever arrived,
an incomplete count, an assembled payload, or a missing frame discovered
while joining. -/
inductive StreamOutcome where
  | noFrames : StreamOutcome
  | incomplete (received total : ℕ) : StreamOutcome
  | assembled (payload : List ℕ) : StreamOutcome
  | missingFrame : StreamOutcome
  deriving DecidableEq

/-- The reassembly loop of app.py lines 262-269: walk `range(total)` in
ascending order, stop at the first index absent from `chunks`, otherwise
append `chunks[i]` to the assembled data. -/
def assembleAcc (s : RState) : List ℕ → Option (List ℕ)
  | [] => some []
  | i :: rest =>
      if i ∈ s.keys then (assembleAcc s rest).map (fun tail => s.pay i ++ tail)
      else none

/-- The branch structure of app.py lines 257-282 for a resolved
characteristic, applied to the reassembly state left by the wait loop. -/
def streamReport (s : RState) : StreamOutcome :=
  match s.total with
  | none => StreamOutcome.noFrames
  | some t =>
      if s.keys.card < t then StreamOutcome.incomplete s.keys.card t
      else
        match assembleAcc s (List.range t) with
        | some payload => StreamOutcome.assembled payload
        | none => StreamOutcome.missingFrame

/-- The `status` variable right after the resolution check (app.py lines
216 and 238-241): line 216 sets `receiving_gatt_notifications`; when the
target characteristic was not resolved, line 241 replaces it with
`characteristic_resolve_failed_before_notify`. -/
def statusAfterResolve (resolved : Bool) : String :=
  if resolved then "receiving_gatt_notifications"
  else "characteristic_resolve_failed_before_notify"

/-- The `status` variable at the end of the try block (app.py line 284):
the assignment `status = "finished_gatt_operations"` runs unconditionally
on the non-exception path, whatever the resolution outcome or the
reassembly state - neither argument affects the result. -/
def streamingFinalStatus (_resolved : Bool) (_s : RState) : String :=
  "finished_gatt_operations"

/-- The externally visible actions of the streaming stage (app.py lines
236-284) in program order, for a run whose notifications left the
reassembler in state `s`: when the characteristic was resolved, the stage
subscribes (line 244), waits, unsubscribes (line 254), and only then
inspects the reassembly state (lines 257-282); when it was not resolved,
neither subscription call happens (lines 238-241). -/
inductive BleEvent where
  | startNotify : BleEvent
  | stopNotify : BleEvent
  | reportOutcome (o : StreamOutcome) : BleEvent
  deriving DecidableEq

/-- The ordered trace of streaming-stage actions (app.py lines 236-284). -/
def streamingTrace (resolved : Bool) (s : RState) : List BleEvent :=
  if resolved then
    [BleEvent.startNotify, BleEvent.stopNotify, BleEvent.reportOutcome (streamReport s)]
  else []

/-- A characteristic of the session's capability tree as Bleak exposes it:
a UUID string (modelled as its list of character codes), the list of
property-name strings, and a handle. -/
structure GChar where
  uuid : List ℕ
  props : List (List ℕ)
  handle : ℕ
  deriving DecidableEq

/-- A service of the capability tree: UUID, its characteristics in
enumeration order, and a handle. -/
structure GService where
  uuid : List ℕ
  chars : List GChar
  handle : ℕ
  deriving DecidableEq

/-- Python `str.lower()` on one character, at the ASCII level used by the
hexadecimal UUID strings the code compares. -/
def lowerChar (c : ℕ) : ℕ := if 65 ≤ c ∧ c ≤ 90 then c + 32 else c

/-- The comparison `a.lower() == b.lower()` (app.py lines 196 and 199). -/
def eqCI (a b : List ℕ) : Bool := a.map lowerChar == b.map lowerChar

/-- The character codes of the property name string checked at app.py
line 201. -/
def notifyWord : List ℕ := [110, 111, 116, 105, 102, 121]

/-- The membership test of app.py line 201 on a characteristic's property
list. -/
def hasNotify (c : GChar) : Bool := decide (notifyWord ∈ c.props)

/-- The inner loop of app.py lines 198-205: scan the service's
characteristics in enumeration order and stop at the first whose UUID
matches case-insensitively and which supports notify; a UUID match without
notify only appends a diagnostic line and the scan continues. -/
def findCharIn (charU : List ℕ) : List GChar → Option GChar
  | [] => none
  | c :: rest =>
      if eqCI c.uuid charU && hasNotify c then some c else findCharIn charU rest

/-- The outer loop of app.py lines 195-207: walk the services in
enumeration order; inside each service whose UUID matches the target
case-insensitively, run the characteristic scan; stop as soon as a
characteristic is found. -/
def locateChar (svcU charU : List ℕ) : List GService → Option GChar
  | [] => none
  | s :: rest =>
      if eqCI s.uuid svcU then
        match findCharIn charU s.chars with
        | some c => some c
        | none => locateChar svcU charU rest
      else locateChar svcU charU rest

/-- An advertisement observation as the scan callbacks see it
(app.py lines 94-107 and 116-129): only the fields the filter logic reads
are modelled - an identifying address, the optional RSSI, and the
manufacturer-data mapping (vendor id to byte string). -/
structure AdvRecord where
  address : ℕ
  rssi : Option Int
  mfg : List (ℕ × List ℕ)
  deriving DecidableEq

/-- Python `bytes.hex()` at the nibble level: each byte becomes its high
and low hexadecimal digit. -/
def hexNibbles : List ℕ → List ℕ
  | [] => []
  | b :: bs => b / 16 :: b % 16 :: hexNibbles bs

/-- The UTF-8 bytes of `TARGET_TEXT = "PALMKI"` (app.py line 20). -/
def targetBytes : List ℕ := [80, 65, 76, 77, 75, 73]

/-- `TARGET_HEX` (app.py line 21) in the nibble model. -/
def targetNibs : List ℕ := hexNibbles targetBytes

/-- Whether the pattern is an initial segment of the text. -/
def nibsAt : List ℕ → List ℕ → Bool
  | [], _ => true
  | _ :: _, [] => false
  | a :: p, b :: l => a == b && nibsAt p l

/-- Python's substring test `pat in s` (app.py lines 97 and 119): the
pattern occurs contiguously at some offset of the text. -/
def hasSub (pat : List ℕ) : List ℕ → Bool
  | [] => pat.isEmpty
  | b :: l => nibsAt pat (b :: l) || hasSub pat l

/-- One entry of the `matches` list (app.py lines 98-107 and 120-129):
the record's identity and RSSI together with the matching
manufacturer-data value (the code stores its hex string; the bytes are
kept here). -/
structure MatchEntry where
  address : ℕ
  rssi : Option Int
  mfgId : ℕ
  mfgData : List ℕ
  deriving DecidableEq

/-- The entries one record contributes to `matches`: one per
manufacturer-data value whose hex encoding contains `TARGET_HEX`
(app.py lines 95-107). -/
def entriesOf (r : AdvRecord) : List MatchEntry :=
  (r.mfg.filter (fun p => hasSub targetNibs (hexNibbles p.2))).map
    (fun p => ⟨r.address, r.rssi, p.1, p.2⟩)

/-- The `matches` list accumulated over the batch in observation order. -/
def buildMatches (records : List AdvRecord) : List MatchEntry :=
  (records.map entriesOf).flatten

/-- The sort key of app.py lines 111 and 138:
`d["rssi"] if d["rssi"] is not None else -999`. -/
def rssiKey (e : MatchEntry) : Int :=
  match e.rssi with
  | some v => v
  | none => -999

/-- The descending-key order used to model Python's stable sort with
`reverse=True`. -/
def rssiGE (a b : MatchEntry) : Prop := rssiKey b ≤ rssiKey a

instance : DecidableRel rssiGE :=
  fun a b => inferInstanceAs (Decidable (rssiKey b ≤ rssiKey a))

/-- `sorted(matches, key=..., reverse=True)[0]` (app.py lines 111 and
138): Python's sort is stable, and a stable descending sort is insertion
sort under the reflexive descending-key order; the selection takes its
head. -/
def pickStrongest (l : List MatchEntry) : Option MatchEntry :=
  (List.insertionSort rssiGE l).head?

/-- The tail of `_scan_with_manufacturer_filter` (app.py lines 109-111 and
136-138): `None` when `matches` is empty, else the head of the stable
descending sort. -/
def scanSelect (records : List AdvRecord) : Option MatchEntry :=
  let ms := buildMatches records
  if ms.isEmpty then none else pickStrongest ms

/-- Reference selection function: the first entry, in observation order,
attaining the maximal sort key. Stated from the spec's words to compare
with the code's sort-then-head selection. -/
def firstStrongest : List MatchEntry → Option MatchEntry
  | [] => none
  | e :: l =>
      match firstStrongest l with
      | none => some e
      | some b => if rssiKey b ≤ rssiKey e then some e else some b

/-- Python indexing `l[i]` for a non-negative index: `none` models the
IndexError raised when the index is out of range (app.py line 169). -/
def pyAt (l : List ℕ) (i : ℕ) : Option ℕ := l.get? i

/-- Python slicing `l[a:b]` for non-negative bounds: total, never raises,
may be shorter than `b - a` (app.py lines 170 and 172). -/
def pySlice (l : List ℕ) (a b : ℕ) : List ℕ := (l.drop a).take (b - a)

/-- `int.from_bytes(bs, byteorder='little')`: total; the empty slice
decodes to 0 (app.py line 172). -/
def intFromBytesLE : List ℕ → ℕ
  | [] => 0
  | b :: bs => b + 256 * intFromBytesLE bs

/-- `decode('utf-8', errors='ignore')` (app.py line 170), modelled at the
single-byte level: invalid bytes are dropped and the decode never raises;
multi-byte sequences are outside what the claims need. -/
def decodeIgnore (l : List ℕ) : List ℕ := l.filter (fun b => decide (b < 128))

/-- The three fields parsed from the manufacturer payload
(app.py lines 169-172). -/
structure MfgParsed where
  version : ℕ
  tag : List ℕ
  counter : ℕ
  deriving DecidableEq

/-- The manufacturer-payload parse of app.py lines 168-172:
`version = mfg_bytes[0]` raises IndexError on an empty value (modelled as
`none`); the tag slice `[1:7]` decoded ignoring invalid bytes and the
little-endian counter slice `[7:9]` are total. -/
def parseMfg (mfgBytes : List ℕ) : Option MfgParsed :=
  match pyAt mfgBytes 0 with
  | none => none
  | some v =>
      some ⟨v, decodeIgnore (pySlice mfgBytes 1 7), intFromBytesLE (pySlice mfgBytes 7 9)⟩

end BleGatt

namespace BleGatt

/-- Helper: the assembly loop succeeds exactly when every listed index is
present in `chunks`. -/
theorem assembleAcc_isSome_iff (s : RState) (l : List ℕ) :
    (∃ p, assembleAcc s l = some p) ↔ ∀ i ∈ l, i ∈ s.keys := by
  induction l with
  | nil => simp [assembleAcc]
  | cons i rest ih =>
      by_cases hi : i ∈ s.keys
      · simp only [assembleAcc, if_pos hi]
        constructor
        · rintro ⟨p, hp⟩ j hj
          rcases List.mem_cons.mp hj with rfl | hj'
          · exact hi
          · rcases Option.map_eq_some'.mp hp with ⟨q, hq, -⟩
            exact (ih.mp ⟨q, hq⟩) j hj'
        · intro h
          rcases ih.mpr (fun j hj => h j (List.mem_cons_of_mem _ hj)) with ⟨q, hq⟩
          exact ⟨s.pay i ++ q, by rw [hq]; rfl⟩
      · simp only [assembleAcc, if_neg hi]
        constructor
        · rintro ⟨p, hp⟩; cases hp
        · intro h; exact absurd (h i (List.mem_cons_self i rest)) hi

/-- Helper: when every listed index is present, the assembly loop returns
the concatenation of the stored payloads in list order. -/
theorem assembleAcc_eq_join (s : RState) (l : List ℕ) (h : ∀ i ∈ l, i ∈ s.keys) :
    assembleAcc s l = some ((l.map s.pay).flatten) := by
  induction l with
  | nil => rfl
  | cons i rest ih =>
      have hi := h i (List.mem_cons_self i rest)
      have hrest := ih (fun j hj => h j (List.mem_cons_of_mem _ hj))
      simp only [assembleAcc, if_pos hi, hrest, Option.map_some', List.map_cons,
        List.flatten_cons]

/-- Helper: if every index below `t` is a key, the chunk count is at least `t`. -/
theorem card_ge_of_allPresent (s : RState) (t : ℕ) (h : ∀ i < t, i ∈ s.keys) :
    t ≤ s.keys.card := by
  calc t = (Finset.range t).card := (Finset.card_range t).symm
    _ ≤ s.keys.card := Finset.card_le_card (fun i hi => h i (Finset.mem_range.mp hi))

/-- Helper: the streaming stage emits an assembled payload exactly when an
authoritative total is set and every index below it is stored. -/
theorem streamReport_assembled_iff (s : RState) :
    (∃ p, streamReport s = StreamOutcome.assembled p) ↔
      ∃ t, s.total = some t ∧ ∀ i < t, i ∈ s.keys := by
  rcases htot : s.total with - | t
  · simp only [streamReport, htot]
    constructor
    · rintro ⟨p, hp⟩; cases hp
    · rintro ⟨t, ht, -⟩; cases ht
  · simp only [streamReport, htot]
    by_cases hc : s.keys.card < t
    · rw [if_pos hc]
      constructor
      · rintro ⟨p, hp⟩; cases hp
      · rintro ⟨t', ht', hall⟩
        obtain rfl : t = t' := by injection ht'
        exact absurd (card_ge_of_allPresent s t hall) (by omega)
    · rw [if_neg hc]
      constructor
      · rintro ⟨p, hp⟩
        rcases hacc : assembleAcc s (List.range t) with - | q
        · rw [hacc] at hp; cases hp
        · refine ⟨t, rfl, fun i hi => ?_⟩
          exact (assembleAcc_isSome_iff s (List.range t)).mp ⟨q, hacc⟩ i
            (List.mem_range.mpr hi)
      · rintro ⟨t', ht', hall⟩
        obtain rfl : t = t' := by injection ht'
        have : ∀ i ∈ List.range t, i ∈ s.keys := fun i hi =>
          hall i (List.mem_range.mp hi)
        rw [assembleAcc_eq_join s _ this]
        exact ⟨_, rfl⟩

/-- C1. For every run of the reassembler, an assembled payload is produced
if and only if every sequence index in `[0, authoritative_total)` is present
in the stored chunk mapping; moreover, a stored-chunk count equal to the
authoritative total with some index in that range absent never yields an
assembled payload. -/
theorem spec_c1 :
    (∀ l : List (List ℕ),
      (∃ p, streamReport (processFrames l) = StreamOutcome.assembled p) ↔
        ∃ t, (processFrames l).total = some t ∧
          ∀ i < t, i ∈ (processFrames l).keys) ∧
    (∀ (l : List (List ℕ)) (t : ℕ),
      (processFrames l).total = some t →
      (processFrames l).keys.card = t →
      (∃ i, i < t ∧ i ∉ (processFrames l).keys) →
      ∀ p, streamReport (processFrames l) ≠ StreamOutcome.assembled p) := by
  refine ⟨fun l => streamReport_assembled_iff _, ?_⟩
  rintro l t htot - ⟨i, hit, hmiss⟩ p hp
  rcases (streamReport_assembled_iff (processFrames l)).mp ⟨p, hp⟩ with ⟨t', ht', hall⟩
  rw [htot] at ht'
  obtain rfl : t = t' := by injection ht'
  exact hmiss (hall i hit)

/-- C6. A malformed frame - fewer than 6 bytes, or declared payload length
exceeding the bytes present after the 6-byte header - leaves the entire
reassembly state unchanged: same authoritative total, same stored indices,
same stored payloads. -/
theorem spec_c6 (s : RState) (d : List ℕ)
    (h : d.length < 6 ∨ 6 + decLen d > d.length) :
    handleFrame s d = s := by
  rcases h with h | h
  · simp only [handleFrame, if_pos h]
  · by_cases h6 : d.length < 6
    · simp only [handleFrame, if_pos h6]
    · simp only [handleFrame, if_neg h6, if_pos h]

/-- C6 witness: a 3-byte runt frame leaves the initial state unchanged. -/
theorem spec_c6_witness : handleFrame initState [1, 2, 3] = initState :=
  spec_c6 initState [1, 2, 3] (Or.inl (by decide))

/-- C2 counterexample: after a first frame declaring total 2, a second
well-formed frame declaring total 3 is not dropped - it overwrites the
authoritative total with 3 and its payload is stored at its index. -/
theorem spec_c2_counterexample :
    (processFrames [[0, 0, 2, 0, 1, 0, 170], [1, 0, 3, 0, 1, 0, 187]]).total = some 3 ∧
    1 ∈ (processFrames [[0, 0, 2, 0, 1, 0, 170], [1, 0, 3, 0, 1, 0, 187]]).keys ∧
    (processFrames [[0, 0, 2, 0, 1, 0, 170], [1, 0, 3, 0, 1, 0, 187]]).pay 1 = [187] := by
  refine ⟨rfl, by decide, rfl⟩

/-- C2 amended: the authoritative total is last-write-wins, not
set-once - every well-formed frame overwrites the total with its own
declared total and stores its payload at its sequence index, whatever
total was established before. -/
theorem spec_c2 (s : RState) (d : List ℕ)
    (h1 : 6 ≤ d.length) (h2 : 6 + decLen d ≤ d.length) :
    (handleFrame s d).total = some (decTotal d) ∧
    decSeq d ∈ (handleFrame s d).keys ∧
    (handleFrame s d).pay (decSeq d) = decPayload d := by
  rw [handleFrame, if_neg (by omega), if_neg (by omega)]
  exact ⟨rfl, Finset.mem_insert_self _ _, Function.update_same _ _ _⟩

/-- C2 witness: a well-formed frame with sequence index 1, declared total 3
and payload `[187]`, applied to an arbitrary concrete prior state. -/
theorem spec_c2_witness :
    (handleFrame initState [1, 0, 3, 0, 1, 0, 187]).total =
      some (decTotal [1, 0, 3, 0, 1, 0, 187]) ∧
    decSeq [1, 0, 3, 0, 1, 0, 187] ∈ (handleFrame initState [1, 0, 3, 0, 1, 0, 187]).keys ∧
    (handleFrame initState [1, 0, 3, 0, 1, 0, 187]).pay (decSeq [1, 0, 3, 0, 1, 0, 187]) =
      decPayload [1, 0, 3, 0, 1, 0, 187] :=
  spec_c2 initState [1, 0, 3, 0, 1, 0, 187] (by decide) (by decide)

/-- C3 counterexample: a run with declared total 3 in which only sequence
indices 0 and 1 arrive before the wait budget elapses is reported as
incomplete 2/3 in the info text, but its terminal status is the very same
string `finished_gatt_operations` that a fully assembled run yields - there
is no distinct incomplete status. -/
theorem spec_c3_counterexample :
    streamReport (processFrames [[0, 0, 3, 0, 1, 0, 65], [1, 0, 3, 0, 1, 0, 66]]) =
      StreamOutcome.incomplete 2 3 ∧
    streamingFinalStatus true
        (processFrames [[0, 0, 3, 0, 1, 0, 65], [1, 0, 3, 0, 1, 0, 66]]) =
      "finished_gatt_operations" ∧
    streamReport (processFrames
        [[0, 0, 3, 0, 1, 0, 65], [1, 0, 3, 0, 1, 0, 66], [2, 0, 3, 0, 1, 0, 67]]) =
      StreamOutcome.assembled [65, 66, 67] ∧
    streamingFinalStatus true (processFrames
        [[0, 0, 3, 0, 1, 0, 65], [1, 0, 3, 0, 1, 0, 66], [2, 0, 3, 0, 1, 0, 67]]) =
      "finished_gatt_operations" := by
  refine ⟨by decide, rfl, by decide, rfl⟩

/-- C3 amended: when the wait budget elapses before completion with partial
index coverage, the info line reports the exact pair
(received count, authoritative total) and the run does not crash, but the
terminal status is the same `finished_gatt_operations` as a successful run,
not a distinct incomplete status. -/
theorem spec_c3 (l : List (List ℕ)) (t : ℕ)
    (h1 : (processFrames l).total = some t)
    (h2 : (processFrames l).keys.card < t) :
    streamReport (processFrames l) =
      StreamOutcome.incomplete (processFrames l).keys.card t ∧
    streamingFinalStatus true (processFrames l) = "finished_gatt_operations" := by
  refine ⟨?_, rfl⟩
  rw [streamReport, h1]
  exact if_pos h2

/-- C3 witness: the run that received sequence indices 0 and 1 of a
declared total of 3 reports incomplete 2/3. -/
theorem spec_c3_witness :
    streamReport (processFrames [[0, 0, 3, 0, 1, 0, 65], [1, 0, 3, 0, 1, 0, 66]]) =
      StreamOutcome.incomplete
        (processFrames [[0, 0, 3, 0, 1, 0, 65], [1, 0, 3, 0, 1, 0, 66]]).keys.card 3 ∧
    streamingFinalStatus true
        (processFrames [[0, 0, 3, 0, 1, 0, 65], [1, 0, 3, 0, 1, 0, 66]]) =
      "finished_gatt_operations" :=
  spec_c3 [[0, 0, 3, 0, 1, 0, 65], [1, 0, 3, 0, 1, 0, 66]] 3 (by decide) (by decide)

/-- C4. When capability resolution finds no endpoint (here: the target
characteristic exists but lacks the notify capability, so the resolver
returns none), the code momentarily assigns the distinct status
`characteristic_resolve_failed_before_notify` (app.py line 241), but the
unconditional assignment at app.py line 284 overwrites it: the terminal
report carries the finished status, contradicting the claim. -/
theorem spec_c4_code_bug :
    locateChar [97] [98] [⟨[97], [⟨[98], [], 7⟩], 3⟩] = none ∧
    statusAfterResolve false = "characteristic_resolve_failed_before_notify" ∧
    streamingFinalStatus false initState = "finished_gatt_operations" ∧
    ("finished_gatt_operations" : String) ≠ "characteristic_resolve_failed_before_notify" := by
  exact ⟨rfl, rfl, rfl, by decide⟩

/-- C7. On every exit path of the streaming stage on which notifications
were started, the subscription is released before the stage returns: in
every trace containing the subscribe action, the unsubscribe action occurs
after it, and it does so before any report of the reassembly outcome - in
particular in the timed-out (incomplete) and missing-frame traces. The
embedding covers the stage's non-exception control flow, on which the wait
loop always terminates within its budget. -/
theorem spec_c7 (resolved : Bool) (s : RState)
    (h : BleEvent.startNotify ∈ streamingTrace resolved s) :
    [BleEvent.startNotify, BleEvent.stopNotify].Sublist (streamingTrace resolved s) ∧
    streamingTrace resolved s =
      [BleEvent.startNotify, BleEvent.stopNotify,
        BleEvent.reportOutcome (streamReport s)] := by
  cases resolved with
  | false => cases h
  | true =>
      refine ⟨?_, rfl⟩
      exact (List.sublist_cons_self _ _).cons₂ _ |>.cons₂ _

/-- C7 witness: in the timed-out run that received only indices 0 and 1 of
a declared 3, the trace subscribes, unsubscribes, and only then reports the
incomplete outcome. -/
theorem spec_c7_witness :
    [BleEvent.startNotify, BleEvent.stopNotify].Sublist
      (streamingTrace true (processFrames [[0, 0, 3, 0, 1, 0, 65], [1, 0, 3, 0, 1, 0, 66]])) ∧
    streamingTrace true (processFrames [[0, 0, 3, 0, 1, 0, 65], [1, 0, 3, 0, 1, 0, 66]]) =
      [BleEvent.startNotify, BleEvent.stopNotify,
        BleEvent.reportOutcome (streamReport
          (processFrames [[0, 0, 3, 0, 1, 0, 65], [1, 0, 3, 0, 1, 0, 66]]))] :=
  spec_c7 true (processFrames [[0, 0, 3, 0, 1, 0, 65], [1, 0, 3, 0, 1, 0, 66]])
    (by decide)

/-- Helper: ASCII lowering is idempotent. -/
theorem lowerChar_idem (c : ℕ) : lowerChar (lowerChar c) = lowerChar c := by
  by_cases h : 65 ≤ c ∧ c ≤ 90
  · have h1 : lowerChar c = c + 32 := by rw [lowerChar, if_pos h]
    rw [h1, lowerChar, if_neg (by omega)]
  · have h1 : lowerChar c = c := by rw [lowerChar, if_neg h]
    rw [h1]
    exact h1

/-- Helper: lowering a string twice equals lowering it once. -/
theorem map_lower_idem (b : List ℕ) :
    (b.map lowerChar).map lowerChar = b.map lowerChar := by
  induction b with
  | nil => rfl
  | cons c bs ih => simp [lowerChar_idem, ih]

/-- Helper: lowering the right-hand string does not change the
case-insensitive comparison. -/
theorem eqCI_lower_right (a b : List ℕ) : eqCI a (b.map lowerChar) = eqCI a b := by
  rw [eqCI, eqCI, map_lower_idem]

/-- Helper: the characteristic scan is insensitive to the case of the
target UUID. -/
theorem findCharIn_lower (charU : List ℕ) (cs : List GChar) :
    findCharIn (charU.map lowerChar) cs = findCharIn charU cs := by
  induction cs with
  | nil => rfl
  | cons c rest ih => simp only [findCharIn, eqCI_lower_right, ih]

/-- Helper: the characteristic scan is the first-match search over the
characteristic list. -/
theorem findCharIn_eq_find? (charU : List ℕ) (cs : List GChar) :
    findCharIn charU cs = cs.find? (fun c => eqCI c.uuid charU && hasNotify c) := by
  induction cs with
  | nil => rfl
  | cons c rest ih =>
      by_cases h : (eqCI c.uuid charU && hasNotify c) = true
      · simp only [findCharIn, if_pos h]
        exact (List.find?_cons_of_pos rest h).symm
      · simp only [findCharIn, if_neg h, ih]
        exact (List.find?_cons_of_neg rest h).symm

/-- C9. The capability resolver equals the first-match search, in
enumeration order, over the concatenated characteristic lists of the
services whose UUID matches the target case-insensitively, for the
predicate "UUID matches case-insensitively and the notify capability is
present" - so traversal stops at the first such characteristic and an
identifier match without the capability is passed over, not fatal; and
the resolver is insensitive to the case of both target UUIDs. -/
theorem spec_c9 :
    (∀ (svcU charU : List ℕ) (ss : List GService),
      locateChar svcU charU ss =
        (((ss.filter (fun s => eqCI s.uuid svcU)).map GService.chars).flatten).find?
          (fun c => eqCI c.uuid charU && hasNotify c)) ∧
    (∀ (svcU charU : List ℕ) (ss : List GService),
      locateChar (svcU.map lowerChar) (charU.map lowerChar) ss =
        locateChar svcU charU ss) := by
  constructor
  · intro svcU charU ss
    induction ss with
    | nil => rfl
    | cons s rest ih =>
        by_cases h : eqCI s.uuid svcU = true
        · have hf : List.filter (fun s => eqCI s.uuid svcU) (s :: rest) =
              s :: List.filter (fun s => eqCI s.uuid svcU) rest :=
            List.filter_cons_of_pos h
          rw [hf]
          simp only [List.map_cons, List.flatten_cons, List.find?_append]
          simp only [locateChar, if_pos h, findCharIn_eq_find?, ih]
          cases List.find? (fun c => eqCI c.uuid charU && hasNotify c) s.chars with
          | none => rfl
          | some c => rfl
        · have hf : List.filter (fun s => eqCI s.uuid svcU) (s :: rest) =
              List.filter (fun s => eqCI s.uuid svcU) rest :=
            List.filter_cons_of_neg (by simpa using h)
          rw [hf]
          simp only [locateChar, if_neg h, ih]
  · intro svcU charU ss
    induction ss with
    | nil => rfl
    | cons s rest ih =>
        simp only [locateChar, eqCI_lower_right, findCharIn_lower, ih]

/-- Helper: the head of the stable descending insertion sort is the first
entry, in original order, attaining the maximal RSSI key. -/
theorem head_insertionSort_eq_firstStrongest (l : List MatchEntry) :
    (List.insertionSort rssiGE l).head? = firstStrongest l := by
  induction l with
  | nil => rfl
  | cons e l ih =>
      show (List.orderedInsert rssiGE e (List.insertionSort rssiGE l)).head? = _
      cases hs : List.insertionSort rssiGE l with
      | nil =>
          have hp : List.Perm (List.insertionSort rssiGE l) l :=
            List.perm_insertionSort rssiGE l
          rw [hs] at hp
          have hl : l = [] := List.eq_nil_of_length_eq_zero hp.length_eq.symm
          subst hl
          rfl
      | cons b t =>
          have hb : firstStrongest l = some b := by rw [← ih, hs]; rfl
          simp only [firstStrongest, hb]
          simp only [List.orderedInsert]
          by_cases hr : rssiGE e b
          · rw [if_pos hr, if_pos (show rssiKey b ≤ rssiKey e from hr)]
            rfl
          · rw [if_neg hr, if_neg (show ¬rssiKey b ≤ rssiKey e from hr)]
            rfl

/-- Helper: the selection of the scan equals the reference first-maximum
function. -/
theorem pickStrongest_eq_firstStrongest (l : List MatchEntry) :
    pickStrongest l = firstStrongest l :=
  head_insertionSort_eq_firstStrongest l

/-- Helper: the first-maximum of a non-empty list is never `none`. -/
theorem firstStrongest_ne_none (a : MatchEntry) (l : List MatchEntry) :
    firstStrongest (a :: l) ≠ none := by
  simp only [firstStrongest]
  cases firstStrongest l with
  | none => exact Option.some_ne_none a
  | some b =>
      show (if rssiKey b ≤ rssiKey a then some a else some b) ≠ none
      by_cases hr : rssiKey b ≤ rssiKey a
      · rw [if_pos hr]; exact Option.some_ne_none a
      · rw [if_neg hr]; exact Option.some_ne_none b

/-- Helper: the first-maximum is an element of the list. -/
theorem firstStrongest_mem (l : List MatchEntry) (e : MatchEntry)
    (h : firstStrongest l = some e) : e ∈ l := by
  induction l generalizing e with
  | nil => cases h
  | cons a l ih =>
      simp only [firstStrongest] at h
      cases hf : firstStrongest l with
      | none =>
          simp only [hf] at h
          obtain rfl := Option.some.inj h
          exact List.mem_cons_self _ _
      | some b =>
          simp only [hf] at h
          by_cases hr : rssiKey b ≤ rssiKey a
          · rw [if_pos hr] at h
            obtain rfl := Option.some.inj h
            exact List.mem_cons_self _ _
          · rw [if_neg hr] at h
            obtain rfl := Option.some.inj h
            exact List.mem_cons_of_mem _ (ih _ hf)

/-- Helper: every element's RSSI key is at most the first-maximum's key. -/
theorem firstStrongest_max (l : List MatchEntry) (e : MatchEntry)
    (h : firstStrongest l = some e) : ∀ x ∈ l, rssiKey x ≤ rssiKey e := by
  induction l generalizing e with
  | nil => cases h
  | cons a l ih =>
      simp only [firstStrongest] at h
      cases hf : firstStrongest l with
      | none =>
          simp only [hf] at h
          obtain rfl := Option.some.inj h
          intro x hx
          rcases List.mem_cons.mp hx with rfl | hx'
          · exact le_refl _
          · cases l with
            | nil => cases hx'
            | cons b t => exact absurd hf (firstStrongest_ne_none b t)
      | some b =>
          simp only [hf] at h
          by_cases hr : rssiKey b ≤ rssiKey a
          · rw [if_pos hr] at h
            obtain rfl := Option.some.inj h
            intro x hx
            rcases List.mem_cons.mp hx with rfl | hx'
            · exact le_refl _
            · exact le_trans (ih _ hf x hx') hr
          · rw [if_neg hr] at h
            obtain rfl := Option.some.inj h
            intro x hx
            rcases List.mem_cons.mp hx with rfl | hx'
            · exact le_of_lt (not_le.mp hr)
            · exact ih _ hf x hx'

/-- Helper: the scan's selection equals the first-maximum of the match
list. -/
theorem scanSelect_eq_firstStrongest (records : List AdvRecord) :
    scanSelect records = firstStrongest (buildMatches records) := by
  simp only [scanSelect]
  cases hm : buildMatches records with
  | nil => rfl
  | cons a ms =>
      rw [if_neg (by simp), pickStrongest_eq_firstStrongest]

/-- C8 counterexample: with two matching records, the first with absent
RSSI and the second with present RSSI -1000, the selection picks the
absent-RSSI record - the claim that a matching record with absent signal
strength ranks below every matching record with present signal strength
is false, because absent RSSI is scored by the sentinel -999. -/
theorem spec_c8_counterexample :
    scanSelect [⟨1, none, [(76, targetBytes)]⟩, ⟨2, some (-1000), [(76, targetBytes)]⟩] =
      some ⟨1, none, 76, targetBytes⟩ ∧
    (⟨2, some (-1000), 76, targetBytes⟩ : MatchEntry) ∈
      buildMatches [⟨1, none, [(76, targetBytes)]⟩, ⟨2, some (-1000), [(76, targetBytes)]⟩] := by
  constructor
  · rfl
  · decide

/-- C8 amended: the filter selects the first match, in observation order,
attaining the maximal effective signal strength, where an absent strength
is scored by the sentinel -999 - so an absent strength ranks below a
present one only when the present strength exceeds -999, and ties
(including a present -999 against an absent strength) are resolved by
first-observed order. In particular, among three matching candidates with
strengths -40, none, -30, the one with -30 is selected. -/
theorem spec_c8 :
    (∀ records : List AdvRecord,
      scanSelect records = firstStrongest (buildMatches records)) ∧
    (∀ (records : List AdvRecord) (e : MatchEntry),
      scanSelect records = some e →
        e ∈ buildMatches records ∧
        ∀ x ∈ buildMatches records, rssiKey x ≤ rssiKey e) ∧
    scanSelect [⟨1, some (-40), [(76, targetBytes)]⟩,
        ⟨2, none, [(76, targetBytes)]⟩,
        ⟨3, some (-30), [(76, targetBytes)]⟩] =
      some ⟨3, some (-30), 76, targetBytes⟩ := by
  refine ⟨scanSelect_eq_firstStrongest, ?_, by rfl⟩
  intro records e h
  rw [scanSelect_eq_firstStrongest] at h
  exact ⟨firstStrongest_mem _ _ h, firstStrongest_max _ _ h⟩

/-- Helper: a pattern occurring at the head is no longer than the text. -/
theorem nibsAt_length (p : List ℕ) :
    ∀ l : List ℕ, nibsAt p l = true → p.length ≤ l.length := by
  induction p with
  | nil => intro l _; simp
  | cons a p ih =>
      intro l h
      cases l with
      | nil => cases h
      | cons b l =>
          simp only [nibsAt, Bool.and_eq_true] at h
          simpa [List.length_cons] using Nat.succ_le_succ (ih l h.2)

/-- Helper: a substring is no longer than the text containing it. -/
theorem hasSub_length (p : List ℕ) :
    ∀ l : List ℕ, hasSub p l = true → p.length ≤ l.length := by
  intro l
  induction l with
  | nil =>
      intro h
      cases p with
      | nil => exact Nat.le_refl 0
      | cons a q => simp [hasSub] at h
  | cons b l ih =>
      intro h
      simp only [hasSub, Bool.or_eq_true] at h
      rcases h with h | h
      · exact nibsAt_length p (b :: l) h
      · exact le_trans (ih h) (Nat.le_succ _)

/-- Helper: the hex encoding has twice as many nibbles as there are bytes. -/
theorem hexNibbles_length (bs : List ℕ) : (hexNibbles bs).length = 2 * bs.length := by
  induction bs with
  | nil => rfl
  | cons b bs ih => simp only [hexNibbles, List.length_cons, ih]; omega

/-- Helper: a little-endian slice of at most two bytes decodes below 2^16. -/
theorem intFromBytesLE_lt (l : List ℕ) (hb : ∀ b ∈ l, b < 256) (hl : l.length ≤ 2) :
    intFromBytesLE l < 65536 := by
  rcases l with - | ⟨a, l2⟩
  · simp [intFromBytesLE]
  rcases l2 with - | ⟨b, l3⟩
  · have ha := hb a (by simp)
    simp only [intFromBytesLE]
    omega
  rcases l3 with - | ⟨c, l4⟩
  · have ha := hb a (by simp)
    have hb2 := hb b (by simp)
    simp only [intFromBytesLE]
    omega
  · simp only [List.length_cons] at hl
    omega

/-- C10. For every byte string selected by the marker filter, the
manufacturer-payload parse never raises: the marker match forces at least
the 6 marker bytes to be present, so indexing byte 0 succeeds; the tag
slice `[1:7]` decodes (ignoring invalid bytes) to at most 6 characters;
and the counter slice `[7:9]`, even when shorter than 2 bytes or empty,
decodes to an unsigned integer below 2^16. -/
theorem spec_c10 (data : List ℕ) (hbytes : ∀ b ∈ data, b < 256)
    (hmatch : hasSub targetNibs (hexNibbles data) = true) :
    6 ≤ data.length ∧
    ∃ r, parseMfg data = some r ∧ r.tag.length ≤ 6 ∧ r.counter < 65536 := by
  have hlen : 6 ≤ data.length := by
    have h12 : targetNibs.length = 12 := by decide
    have hle := hasSub_length targetNibs (hexNibbles data) hmatch
    rw [h12, hexNibbles_length] at hle
    omega
  refine ⟨hlen, ?_⟩
  cases data with
  | nil => simp at hlen
  | cons b bs =>
      refine ⟨⟨b, decodeIgnore (pySlice (b :: bs) 1 7),
        intFromBytesLE (pySlice (b :: bs) 7 9)⟩, rfl, ?_, ?_⟩
      · calc (decodeIgnore (pySlice (b :: bs) 1 7)).length
            ≤ (pySlice (b :: bs) 1 7).length := List.length_filter_le _ _
          _ ≤ 6 := by rw [pySlice, List.length_take]; omega
      · apply intFromBytesLE_lt
        · intro x hx
          exact hbytes x
            (((List.take_sublist _ _).trans (List.drop_sublist _ _)).subset hx)
        · rw [pySlice, List.length_take]
          omega

/-- C10 witness: the 6-byte value consisting of exactly the marker bytes
(fewer than the 9 bytes of a full payload) matches the marker, parses
without raising, and its empty counter slice decodes to an unsigned
integer. -/
theorem spec_c10_witness :
    6 ≤ targetBytes.length ∧
    ∃ r, parseMfg targetBytes = some r ∧ r.tag.length ≤ 6 ∧ r.counter < 65536 :=
  spec_c10 targetBytes (by decide) (by decide)

/-- Helper: a well-formed frame updates the state exactly as the last two
lines of `handle_frame` write it. -/
theorem handleFrame_wf (s : RState) (d : List ℕ) (h1 : 6 ≤ d.length)
    (h2 : 6 + decLen d ≤ d.length) :
    handleFrame s d =
      ⟨insert (decSeq d) s.keys, Function.update s.pay (decSeq d) (decPayload d),
        some (decTotal d)⟩ := by
  rw [handleFrame, if_neg (by omega), if_neg (by omega)]

/-- Helper: processing well-formed frames adds exactly their sequence
indices to the key set. -/
theorem foldl_keys_mem :
    ∀ (l : List (List ℕ)) (s : RState),
      (∀ d ∈ l, 6 ≤ d.length ∧ 6 + decLen d ≤ d.length) →
      ∀ x : ℕ, (x ∈ (l.foldl handleFrame s).keys ↔ x ∈ s.keys ∨ x ∈ l.map decSeq) := by
  intro l
  induction l with
  | nil => intro s _ x; simp
  | cons d l ih =>
      intro s hwf x
      have hd := hwf d (List.mem_cons_self _ _)
      simp only [List.foldl_cons, List.map_cons]
      rw [ih (handleFrame s d) (fun d' h' => hwf d' (List.mem_cons_of_mem _ h')) x,
        handleFrame_wf s d hd.1 hd.2]
      simp only [List.mem_cons]
      constructor
      · rintro (h | h)
        · rcases Finset.mem_insert.mp h with rfl | h2
          · exact Or.inr (Or.inl rfl)
          · exact Or.inl h2
        · exact Or.inr (Or.inr h)
      · rintro (h | rfl | h)
        · exact Or.inl (Finset.mem_insert_of_mem h)
        · exact Or.inl (Finset.mem_insert_self _ _)
        · exact Or.inr h

/-- Helper: a sequence index never written keeps its stored payload. -/
theorem foldl_pay_notmem :
    ∀ (l : List (List ℕ)) (s : RState) (x : ℕ), x ∉ l.map decSeq →
      (l.foldl handleFrame s).pay x = s.pay x := by
  intro l
  induction l with
  | nil => intro s x _; rfl
  | cons d l ih =>
      intro s x hx
      have hx1 : x ≠ decSeq d := fun h => hx (by simp [h])
      have hx2 : x ∉ l.map decSeq := fun h => hx (by simp [h])
      simp only [List.foldl_cons]
      rw [ih (handleFrame s d) x hx2]
      unfold handleFrame
      by_cases h1 : d.length < 6
      · rw [if_pos h1]
      · rw [if_neg h1]
        by_cases h2 : 6 + decLen d > d.length
        · rw [if_pos h2]
        · rw [if_neg h2]
          exact Function.update_noteq hx1 _ _

/-- Helper: when every frame carries the payload determined by its
sequence index, a written index stores exactly that payload
(last-write-wins keeps it stable). -/
theorem foldl_pay_mem (p : ℕ → List ℕ) (x : ℕ) :
    ∀ (l : List (List ℕ)) (s : RState),
      (∀ d ∈ l, 6 ≤ d.length ∧ 6 + decLen d ≤ d.length) →
      (∀ d ∈ l, decPayload d = p (decSeq d)) →
      x ∈ l.map decSeq →
      (l.foldl handleFrame s).pay x = p x := by
  intro l
  induction l with
  | nil => intro s _ _ hx; cases hx
  | cons d l ih =>
      intro s hwf hpay hx
      have hd := hwf d (List.mem_cons_self _ _)
      simp only [List.foldl_cons]
      by_cases hxl : x ∈ l.map decSeq
      · exact ih (handleFrame s d) (fun d' h' => hwf d' (List.mem_cons_of_mem _ h'))
          (fun d' h' => hpay d' (List.mem_cons_of_mem _ h')) hxl
      · have hxd : x = decSeq d := by
          have hx' : x ∈ decSeq d :: l.map decSeq := by
            rw [List.map_cons] at hx
            exact hx
          rcases List.mem_cons.mp hx' with h | h
          · exact h
          · exact absurd h hxl
        subst hxd
        rw [foldl_pay_notmem l (handleFrame s d) _ hxl,
          handleFrame_wf s d hd.1 hd.2]
        show Function.update s.pay (decSeq d) (decPayload d) (decSeq d) = p (decSeq d)
        rw [Function.update_same]
        exact hpay d (List.mem_cons_self _ _)

/-- Helper: after a non-empty run of well-formed frames all declaring the
same total, the authoritative total is that total. -/
theorem foldl_total (N : ℕ) :
    ∀ (l : List (List ℕ)) (s : RState),
      (∀ d ∈ l, 6 ≤ d.length ∧ 6 + decLen d ≤ d.length) →
      (∀ d ∈ l, decTotal d = N) → l ≠ [] →
      (l.foldl handleFrame s).total = some N := by
  intro l
  induction l with
  | nil => intro s _ _ h; exact absurd rfl h
  | cons d l ih =>
      intro s hwf htot _
      have hd := hwf d (List.mem_cons_self _ _)
      simp only [List.foldl_cons]
      cases l with
      | nil =>
          simp only [List.foldl_nil]
          rw [handleFrame_wf s d hd.1 hd.2]
          exact congrArg some (htot d (List.mem_cons_self _ _))
      | cons d2 l2 =>
          exact ih (handleFrame s d)
            (fun d' h' => hwf d' (List.mem_cons_of_mem _ h'))
            (fun d' h' => htot d' (List.mem_cons_of_mem _ h'))
            (List.cons_ne_nil d2 l2)

/-- Helper: when the total is set and every index below it is present, the
report is the concatenation of the stored payloads in ascending index
order. -/
theorem streamReport_eq_assembled (s : RState) (t : ℕ) (htot : s.total = some t)
    (hall : ∀ i ∈ List.range t, i ∈ s.keys) :
    streamReport s = StreamOutcome.assembled (((List.range t).map s.pay).flatten) := by
  have hcard : ¬s.keys.card < t :=
    not_lt.mpr (card_ge_of_allPresent s t (fun i hi => hall i (List.mem_range.mpr hi)))
  simp only [streamReport, htot]
  rw [if_neg hcard, assembleAcc_eq_join s _ hall]

/-- C5. For every complete, duplicate-free set of well-formed frames with
authoritative total N (the decoded sequence indices are exactly
`[0, N)`, every frame declares total N and carries the payload determined
by its index) and for every arrival order of those frames, the
reassembler emits the same final payload: the concatenation of the
payloads in ascending sequence-index order. -/
theorem spec_c5 (N : ℕ) (p : ℕ → List ℕ) (l : List (List ℕ))
    (hN : 0 < N)
    (hwf : ∀ d ∈ l, 6 ≤ d.length ∧ 6 + decLen d ≤ d.length)
    (htot : ∀ d ∈ l, decTotal d = N)
    (hpay : ∀ d ∈ l, decPayload d = p (decSeq d))
    (hseq : (l.map decSeq).Perm (List.range N)) :
    streamReport (processFrames l) =
      StreamOutcome.assembled (((List.range N).map p).flatten) := by
  have hlne : l ≠ [] := by
    intro h
    subst h
    have hlen := hseq.length_eq
    simp at hlen
    omega
  have htotal : (processFrames l).total = some N :=
    foldl_total N l initState hwf htot hlne
  have hall : ∀ i ∈ List.range N, i ∈ (processFrames l).keys := by
    intro i hi
    exact (foldl_keys_mem l initState hwf i).mpr (Or.inr (hseq.mem_iff.mpr hi))
  have hmap : (List.range N).map (processFrames l).pay = (List.range N).map p := by
    apply List.map_congr_left
    intro i hi
    exact foldl_pay_mem p i l initState hwf hpay (hseq.mem_iff.mpr hi)
  rw [streamReport_eq_assembled (processFrames l) N htotal hall, hmap]

/-- C5 witness: the spec's end-to-end example - frames (seq 2, "EF"),
(seq 0, "AB"), (seq 1, "CD"), all declaring total 3, delivered in that
order, reassemble to "ABCDEF" (bytes 65..70). -/
theorem spec_c5_witness :
    streamReport (processFrames
      [[2, 0, 3, 0, 2, 0, 69, 70], [0, 0, 3, 0, 2, 0, 65, 66], [1, 0, 3, 0, 2, 0, 67, 68]]) =
      StreamOutcome.assembled
        (((List.range 3).map (fun i => [65 + 2 * i, 66 + 2 * i])).flatten) :=
  spec_c5 3 (fun i => [65 + 2 * i, 66 + 2 * i])
    [[2, 0, 3, 0, 2, 0, 69, 70], [0, 0, 3, 0, 2, 0, 65, 66], [1, 0, 3, 0, 2, 0, 67, 68]]
    (by decide) (by decide) (by decide) (by decide) (by decide)

end BleGatt
